import Mathlib

/-!
Verification of the local RAG (retrieval-augmented generation) engine built in
the notebook `mistral-rag-langchain-chromadb`: chunking a PDF into overlapping
passages, storing them with stable ids in a Chroma collection, retrieving the
top-k passages for a question under cosine distance, assembling the prompt from
the template, and invoking the generation pipeline (`return_full_text=True`).

Text is modelled as `List Char` (the notebook manipulates Python strings by
character count: `length_function = len`).  Embedding vectors are modelled as
`List ℚ`, an exact stand-in for the float vectors of the embedder; the cosine
distance `1 - (a·b)/(|a||b|)` lives in `ℝ`.  External adapters (the embedder
and the text-generation pipeline) are opaque function parameters.
-/

/-- Text as a character sequence, as Python `len`/slicing sees a string. -/
abbrev Str := List Char

/-- The characters of a Lean string literal, as a `Str`. -/
def strOf (s : String) : Str := s.data

/-- `p` occurs contiguously inside `s`. -/
def occursIn (p s : Str) : Prop := ∃ a b : List Char, s = a ++ p ++ b

/-- A LangChain `Document`: the page (or chunk) text plus the metadata dict
`\x7b'page': …, 'source': …\x7d` that `PyPDFLoader` attaches and the splitter
copies onto every chunk. -/
structure Document where
  page_content : Str
  source : Str
  page : Nat
deriving DecidableEq

/-! ### Chunker

`RecursiveCharacterTextSplitter(chunk_size = 150, chunk_overlap = 50,
length_function = len)` is configured in the notebook but its algorithm lives
in the langchain library, outside this repository. -/

/-- Modelled from the spec: the splitting algorithm of
`RecursiveCharacterTextSplitter` is not in the repository, so the chunker is
the spec's character-level sliding window (§4.1): each chunk is the next
`size` characters, and the window advances by `size - ov` so that the last
`ov` characters of a chunk reappear at the head of the next one.  The
recursion is driven by a fuel argument (one unit per remaining character) so
that the function is structurally recursive. -/
def splitCharsAux (size ov : Nat) : Nat → List Char → List (List Char)
  | 0, _ => []
  | fuel + 1, s =>
      if s.length ≤ size then (if s.isEmpty then [] else [s])
      else s.take size :: splitCharsAux size ov fuel (s.drop (size - ov))

/-- Modelled from the spec: `split` of §4.1.  Empty page text yields zero
chunks, and `ov ≥ size` is the spec's `InvalidConfig`, modelled as producing
no chunks. -/
def splitChars (size ov : Nat) (s : Str) : List Str :=
  if ov < size then splitCharsAux size ov (List.length s) s else []

/-- Unfolding the chunk recursion when the remaining text still overflows
one chunk. -/
theorem splitCharsAux_cons (size ov n : Nat) (s : List Char)
    (hle : ¬ s.length ≤ size) :
    splitCharsAux size ov (n + 1) s =
      s.take size :: splitCharsAux size ov n (s.drop (size - ov)) := by
  simp [splitCharsAux, hle]

/-- Unfolding the chunk recursion on a final short non-empty piece. -/
theorem splitCharsAux_last (size ov n : Nat) (s : List Char)
    (hle : s.length ≤ size) (hnil : s ≠ []) :
    splitCharsAux size ov (n + 1) s = [s] := by
  simp [splitCharsAux, hle, hnil]

/-- Position of chunk `i`: it is the `size`-character window at offset
`i * (size - ov)` of the page text. -/
theorem splitCharsAux_get (size ov : Nat) (h : ov < size) :
    ∀ (fuel : Nat) (s : List Char), s.length ≤ fuel →
      ∀ (i : Nat), ∀ hi : i < (splitCharsAux size ov fuel s).length,
        (splitCharsAux size ov fuel s)[i] =
          (s.drop (i * (size - ov))).take size := by
  intro fuel
  induction fuel with
  | zero => intro s hs i hi; simp [splitCharsAux] at hi
  | succ n ih =>
      intro s hs i hi
      by_cases hle : s.length ≤ size
      · have hnil : s ≠ [] := by
          intro hcon
          rw [hcon] at hi
          simp [splitCharsAux] at hi
        rw [splitCharsAux_last size ov n s hle hnil] at hi
        simp only [List.length_singleton] at hi
        have h0 : i = 0 := by omega
        subst h0
        simp [splitCharsAux_last size ov n s hle hnil,
          List.take_of_length_le hle]
      · rw [splitCharsAux_cons size ov n s hle] at hi
        match i with
        | 0 => simp [splitCharsAux_cons size ov n s hle]
        | i + 1 =>
            have hlen : (s.drop (size - ov)).length ≤ n := by
              simp only [List.length_drop]
              omega
            have hi' : i < (splitCharsAux size ov n (s.drop (size - ov))).length := by
              simpa using hi
            simp only [splitCharsAux_cons size ov n s hle, List.getElem_cons_succ]
            rw [ih _ hlen i hi']
            rw [List.drop_drop]
            congr 2
            ring

/-- A chunk that is not the last one was cut from a window that still held
more than `size` characters. -/
theorem splitCharsAux_not_last (size ov : Nat) (h : ov < size) :
    ∀ (fuel : Nat) (s : List Char), s.length ≤ fuel →
      ∀ i : Nat, i + 1 < (splitCharsAux size ov fuel s).length →
        size < (s.drop (i * (size - ov))).length := by
  intro fuel
  induction fuel with
  | zero => intro s hs i hi; simp [splitCharsAux] at hi
  | succ n ih =>
      intro s hs i hi
      by_cases hle : s.length ≤ size
      · by_cases hnil : s = []
        · rw [hnil] at hi
          simp [splitCharsAux] at hi
        · rw [splitCharsAux_last size ov n s hle hnil] at hi
          simp at hi
      · rw [splitCharsAux_cons size ov n s hle] at hi
        match i with
        | 0 => simpa using Nat.lt_of_not_le hle
        | i + 1 =>
            have hlen : (s.drop (size - ov)).length ≤ n := by
              simp only [List.length_drop]
              omega
            have := ih _ hlen i (by simpa using hi)
            rw [List.drop_drop] at this
            have harith : size - ov + i * (size - ov) = (i + 1) * (size - ov) := by
              ring
            rwa [harith] at this

/-- Position of chunk `i` of a split page. -/
theorem splitChars_get (size ov : Nat) (h : ov < size) (s : Str) (i : Nat)
    (hi : i < (splitChars size ov s).length) :
    (splitChars size ov s)[i] = (s.drop (i * (size - ov))).take size := by
  have hs : (splitChars size ov s) = splitCharsAux size ov (List.length s) s := by
    simp [splitChars, h]
  rw [hs] at hi
  simp only [hs]
  exact splitCharsAux_get size ov h (List.length s) s le_rfl i hi

/-- A chunk of a split page that is not the page's last chunk has full
length `size`. -/
theorem splitChars_full (size ov : Nat) (h : ov < size) (s : Str) (i : Nat)
    (hi : i + 1 < (splitChars size ov s).length) :
    size < (s.drop (i * (size - ov))).length := by
  have hs : (splitChars size ov s) = splitCharsAux size ov (List.length s) s := by
    simp [splitChars, h]
  rw [hs] at hi
  exact splitCharsAux_not_last size ov h (List.length s) s le_rfl i hi

/-- C6: every chunk produced by splitting any text with a given
`chunk_size` has length at most `chunk_size`. -/
theorem chunk_size_bound (size ov : Nat) (s : Str) (c : Str)
    (hc : c ∈ splitChars size ov s) : c.length ≤ size := by
  by_cases h : ov < size
  · obtain ⟨i, hi, hgi⟩ := List.mem_iff_getElem.mp hc
    rw [splitChars_get size ov h s i hi] at hgi
    rw [← hgi]
    simp only [List.length_take]
    exact Nat.min_le_left size _
  · simp [splitChars, h] at hc

/-- Witness for `chunk_size_bound` at the spec's scenario input. -/
theorem chunk_size_bound_witness :
    strOf "the quick " ∈ splitChars 10 3 (strOf "the quick brown fox") ∧
      (strOf "the quick ").length ≤ 10 :=
  ⟨by decide,
    chunk_size_bound 10 3 (strOf "the quick brown fox") (strOf "the quick ")
      (by decide)⟩

/-- C5: consecutive chunks of one page share exactly `chunk_overlap`
characters: chunk `i` has full length `chunk_size`, its `chunk_overlap`
trailing characters equal the `chunk_overlap` leading characters of chunk
`i + 1`, and that shared block has length exactly `chunk_overlap`. -/
theorem chunk_overlap_shared (size ov : Nat) (h : ov < size) (s : Str)
    (i : Nat) (hi : i + 1 < (splitChars size ov s).length) :
    ((splitChars size ov s).get ⟨i, by omega⟩).length = size ∧
      ((splitChars size ov s).get ⟨i, by omega⟩).drop (size - ov) =
        ((splitChars size ov s).get ⟨i + 1, hi⟩).take ov ∧
      (((splitChars size ov s).get ⟨i + 1, hi⟩).take ov).length = ov := by
  have hfull := splitChars_full size ov h s i hi
  have hIlt : i < (splitChars size ov s).length := by omega
  have hgi := splitChars_get size ov h s i hIlt
  have hgj := splitChars_get size ov h s (i + 1) hi
  have hnext : ov < ((s.drop ((i + 1) * (size - ov)))).length := by
    simp only [List.length_drop] at hfull ⊢
    have : (i + 1) * (size - ov) = i * (size - ov) + (size - ov) := by ring
    omega
  simp only [List.get_eq_getElem]
  refine ⟨?_, ?_, ?_⟩
  · rw [hgi]
    simp only [List.length_take]
    omega
  · rw [hgi, hgj]
    rw [List.drop_take]
    have hov : size - (size - ov) = ov := by omega
    rw [hov]
    rw [List.drop_drop]
    rw [List.take_take]
    have hmin : min ov size = ov := by omega
    rw [hmin]
    congr 2
    ring
  · rw [hgj]
    simp only [List.take_take, List.length_take, List.length_drop]
    simp only [List.length_drop] at hnext
    omega

/-- Witness for `chunk_overlap_shared`: the spec's scenario text with
`chunk_size = 10`, `chunk_overlap = 3`. -/
theorem chunk_overlap_shared_witness :
    (3 < 10 ∧ 0 + 1 < (splitChars 10 3 (strOf "the quick brown fox")).length) ∧
      (((splitChars 10 3 (strOf "the quick brown fox")).get ⟨0, by decide⟩).length = 10 ∧
        ((splitChars 10 3 (strOf "the quick brown fox")).get ⟨0, by decide⟩).drop (10 - 3) =
          ((splitChars 10 3 (strOf "the quick brown fox")).get ⟨0 + 1, by decide⟩).take 3 ∧
        (((splitChars 10 3 (strOf "the quick brown fox")).get ⟨0 + 1, by decide⟩).take 3).length = 3) :=
  ⟨⟨by decide, by decide⟩,
    chunk_overlap_shared 10 3 (by decide) (strOf "the quick brown fox") 0 (by decide)⟩

/-! ### Ingestion: split_documents and the id scheme

From the notebook:

    text_splitter = RecursiveCharacterTextSplitter(chunk_size = 150,
        chunk_overlap = 50, length_function = len, is_separator_regex = False)
    chunks = text_splitter.split_documents(documents)
    store = Chroma.from_documents(chunks, embeddings,
        ids = [f"\x7bitem.metadata['source']\x7d-\x7bindex\x7d"
               for index, item in enumerate(chunks)],
        collection_name="D4DO-Embeddings")
-/

/-- The notebook's chunking parameters. -/
def chunk_size : Nat := 150

/-- The notebook's chunking parameters. -/
def chunk_overlap : Nat := 50

/-- `PyPDFLoader.load`: one `Document` per page, every page carrying the same
`source` (the file path) and its zero-based page number. -/
def load_pdf (source : Str) (pages : List Str) : List Document :=
  pages.enum.map fun p => ⟨p.2, source, p.1⟩

/-- `text_splitter.split_documents`: split each page's text and copy the
page's metadata onto each of its chunks. -/
def split_documents (size ov : Nat) (docs : List Document) : List Document :=
  (docs.map fun d =>
    (splitChars size ov d.page_content).map fun t => ⟨t, d.source, d.page⟩).flatten

/-- The decimal digit characters, as Python renders a `Nat` digit. -/
def digitChar : Nat → Char
  | 0 => '0' | 1 => '1' | 2 => '2' | 3 => '3' | 4 => '4'
  | 5 => '5' | 6 => '6' | 7 => '7' | 8 => '8' | _ => '9'

/-- The decimal rendering of `n`, as Python's `f"\x7bn\x7d"` writes it. -/
def natChars (n : Nat) : Str :=
  if n = 0 then [digitChar 0] else ((Nat.digits 10 n).reverse).map digitChar

/-- The id the notebook computes for chunk number `i`:
`f"\x7bsource\x7d-\x7bindex\x7d"`. -/
def chunkId (source : Str) (i : Nat) : Str := source ++ strOf "-" ++ natChars i

/-- The id list passed to `Chroma.from_documents`: the chunk's source joined
with the chunk's position in the enumeration of all chunks. -/
def chunk_ids (chunks : List Document) : List Str :=
  chunks.enum.map fun p => chunkId p.2.source p.1

theorem digitChar_inj_lt : ∀ a < 10, ∀ b < 10, digitChar a = digitChar b → a = b := by
  decide

theorem map_digitChar_inj :
    ∀ (l1 l2 : List Nat), (∀ x ∈ l1, x < 10) → (∀ x ∈ l2, x < 10) →
      l1.map digitChar = l2.map digitChar → l1 = l2 := by
  intro l1
  induction l1 with
  | nil => intro l2 _ _ hmap; cases l2 <;> simp_all
  | cons a t ih =>
      intro l2 h1 h2 hmap
      cases l2 with
      | nil => simp at hmap
      | cons b t2 =>
          simp only [List.map_cons, List.cons.injEq] at hmap
          have ha : a < 10 := h1 a (List.mem_cons_self a t)
          have hb : b < 10 := h2 b (List.mem_cons_self b t2)
          have hab := digitChar_inj_lt a ha b hb hmap.1
          have ht := ih t2 (fun x hx => h1 x (List.mem_cons_of_mem a hx))
            (fun x hx => h2 x (List.mem_cons_of_mem b hx)) hmap.2
          rw [hab, ht]

theorem natChars_eq_zero_digits (b : Nat) (hb : b ≠ 0)
    (h : [digitChar 0] = ((Nat.digits 10 b).reverse).map digitChar) : False := by
  have h0 : ([0] : List Nat).map digitChar =
      ((Nat.digits 10 b).reverse).map digitChar := by simpa using h
  have h1 : ([0] : List Nat) = (Nat.digits 10 b).reverse :=
    map_digitChar_inj _ _ (by intro x hx; simp at hx; omega)
      (fun x hx => Nat.digits_lt_base (by norm_num) (List.mem_reverse.mp hx)) h0
  have h2 : Nat.digits 10 b = [0] := by
    have := congrArg List.reverse h1
    simpa using this.symm
  have h3 : b = 0 := by
    have := Nat.ofDigits_digits 10 b
    rw [h2] at this
    simpa [Nat.ofDigits] using this.symm
  exact hb h3

theorem natChars_injective : Function.Injective natChars := by
  intro a b h
  unfold natChars at h
  by_cases ha : a = 0
  · by_cases hb : b = 0
    · rw [ha, hb]
    · rw [if_pos ha, if_neg hb] at h
      exact absurd (natChars_eq_zero_digits b hb h) id
  · by_cases hb : b = 0
    · rw [if_neg ha, if_pos hb] at h
      exact absurd (natChars_eq_zero_digits a ha h.symm) id
    · rw [if_neg ha, if_neg hb] at h
      have h2 : (Nat.digits 10 a).map digitChar = (Nat.digits 10 b).map digitChar := by
        have := congrArg List.reverse h
        simpa [List.map_reverse] using this
      have h3 : Nat.digits 10 a = Nat.digits 10 b :=
        map_digitChar_inj _ _ (fun x hx => Nat.digits_lt_base (by norm_num) hx)
          (fun x hx => Nat.digits_lt_base (by norm_num) hx) h2
      have := congrArg (Nat.ofDigits 10) h3
      simpa [Nat.ofDigits_digits] using this

theorem chunkId_injective (source : Str) : Function.Injective (chunkId source) := by
  intro a b h
  unfold chunkId at h
  have h2 : natChars a = natChars b := by
    rw [List.append_assoc, List.append_assoc] at h
    exact List.append_cancel_left (List.append_cancel_left h)
  exact natChars_injective h2

/-- Every chunk of a single loaded PDF carries the PDF's source path. -/
theorem split_documents_source (src : Str) (pages : List Str) (size ov : Nat) :
    ∀ d ∈ split_documents size ov (load_pdf src pages), d.source = src := by
  intro d hd
  simp only [split_documents, List.mem_flatten, List.mem_map, load_pdf] at hd
  obtain ⟨l, ⟨⟨p, hp, hl⟩, hdl⟩⟩ := hd
  rw [← hl] at hdl
  simp only [List.mem_map] at hdl
  obtain ⟨t, ht, hdt⟩ := hdl
  obtain ⟨a, ha, hpa⟩ := hp
  rw [← hdt]
  show p.source = src
  rw [← hpa]

/-- When every chunk carries the same source, the id list is exactly
`source-0, source-1, …` in chunk order. -/
theorem chunk_ids_of_same_source (src : Str) (chunks : List Document)
    (h : ∀ d ∈ chunks, d.source = src) :
    chunk_ids chunks = (List.range chunks.length).map (chunkId src) := by
  apply List.ext_getElem
  · simp [chunk_ids]
  · intro i h1 h2
    simp only [chunk_ids, List.getElem_map, List.getElem_range,
      List.getElem_enum]
    rw [h _ (List.getElem_mem _)]

/-- C4: for a document whose pages all come from one `source`, chunk number
`i` (its position among the chunks of that source, counted from 0 in
chunk order) receives the id `f"\x7bsource\x7d-\x7bi\x7d"`, and the ids of
one ingestion run are pairwise distinct. -/
theorem ingestion_ids (src : Str) (pages : List Str) (size ov : Nat) :
    chunk_ids (split_documents size ov (load_pdf src pages)) =
      (List.range (split_documents size ov (load_pdf src pages)).length).map
        (chunkId src) ∧
      (chunk_ids (split_documents size ov (load_pdf src pages))).Nodup := by
  have hsrc := split_documents_source src pages size ov
  have heq := chunk_ids_of_same_source src _ hsrc
  refine ⟨heq, ?_⟩
  rw [heq]
  exact (List.nodup_range _).map (chunkId_injective src)

/-! ### Vector store

`Chroma.from_documents(chunks, embeddings, ids = …, collection_name =
"D4DO-Embeddings")` writes one record per chunk into the collection.  The
Chroma implementation is not in the repository. -/

/-- A stored record: id, embedding vector, and the chunk `Document` (its text
and metadata).  Vectors are exact rationals standing in for the embedder's
float vectors. -/
structure VecRecord where
  id : Str
  vector : List ℚ
  doc : Document
deriving DecidableEq

/-- Modelled from the spec: Chroma's write is upsert-by-id (§3 Vector Record:
"re-ingesting replaces, never duplicates").  If the id is present the record
is replaced in place, otherwise it is appended in insertion order. -/
def upsert (s : List VecRecord) (r : VecRecord) : List VecRecord :=
  if ∃ x ∈ s, x.id = r.id then s.map fun x => if x.id = r.id then r else x
  else s ++ [r]

/-- Writing a batch of records is the fold of single upserts. -/
def ingest (s : List VecRecord) (recs : List VecRecord) : List VecRecord :=
  recs.foldl upsert s

/-- The records `Chroma.from_documents` builds: chunk `index` is stored under
id `f"\x7bitem.metadata['source']\x7d-\x7bindex\x7d"` with its embedding and
its `Document`. -/
def from_documents (embed : Str → List ℚ) (chunks : List Document) :
    List VecRecord :=
  chunks.enum.map fun p => ⟨chunkId p.2.source p.1, embed p.2.page_content, p.2⟩

/-- `r` is the one record of `t` carrying id `r.id`. -/
def storedAt (t : List VecRecord) (r : VecRecord) : Prop :=
  r ∈ t ∧ ∀ x ∈ t, x.id = r.id → x = r

theorem storedAt_upsert_self (s : List VecRecord) (r : VecRecord) :
    storedAt (upsert s r) r := by
  unfold upsert
  by_cases h : ∃ x ∈ s, x.id = r.id
  · rw [if_pos h]
    obtain ⟨x, hx, hxid⟩ := h
    constructor
    · refine List.mem_map.mpr ⟨x, hx, ?_⟩
      simp [hxid]
    · intro y hy hyid
      obtain ⟨z, hz, hzy⟩ := List.mem_map.mp hy
      by_cases hzid : z.id = r.id
      · simpa [hzid] using hzy.symm
      · rw [← hzy] at hyid ⊢
        simp only [hzid, if_neg, not_false_iff] at hyid ⊢
  · rw [if_neg h]
    constructor
    · simp
    · intro y hy hyid
      rcases List.mem_append.mp hy with hys | hyr
      · exact absurd ⟨y, hys, hyid⟩ h
      · simpa using hyr

theorem storedAt_upsert_other (t : List VecRecord) (r r' : VecRecord)
    (hne : r'.id ≠ r.id) (h : storedAt t r) : storedAt (upsert t r') r := by
  obtain ⟨hmem, huniq⟩ := h
  unfold upsert
  by_cases hp : ∃ x ∈ t, x.id = r'.id
  · rw [if_pos hp]
    constructor
    · refine List.mem_map.mpr ⟨r, hmem, ?_⟩
      have : ¬ r.id = r'.id := fun hc => hne hc.symm
      simp [this]
    · intro y hy hyid
      obtain ⟨z, hz, hzy⟩ := List.mem_map.mp hy
      by_cases hzid : z.id = r'.id
      · rw [← hzy] at hyid
        simp only [hzid, if_pos] at hyid
        exact absurd hyid hne
      · rw [← hzy] at hyid ⊢
        simp only [hzid, if_neg, not_false_iff] at hyid ⊢
        exact huniq z hz hyid
  · rw [if_neg hp]
    constructor
    · exact List.mem_append.mpr (Or.inl hmem)
    · intro y hy hyid
      rcases List.mem_append.mp hy with hys | hyr
      · exact huniq y hys hyid
      · simp only [List.mem_singleton] at hyr
        rw [hyr] at hyid
        exact absurd hyid hne

theorem upsert_storedAt_eq (t : List VecRecord) (r : VecRecord)
    (h : storedAt t r) : upsert t r = t := by
  obtain ⟨hmem, huniq⟩ := h
  unfold upsert
  rw [if_pos ⟨r, hmem, rfl⟩]
  conv_rhs => rw [← List.map_id t]
  apply List.map_congr_left
  intro x hx
  by_cases hxid : x.id = r.id
  · simp only [hxid, if_pos, id]
    exact (huniq x hx hxid).symm
  · simp [hxid]

theorem ingest_storedAt_eq (recs : List VecRecord) :
    ∀ t : List VecRecord, (∀ r ∈ recs, storedAt t r) → ingest t recs = t := by
  induction recs with
  | nil => intro t _; rfl
  | cons r rest ih =>
      intro t h
      show ingest (upsert t r) rest = t
      rw [upsert_storedAt_eq t r (h r (List.mem_cons_self r rest))]
      exact ih t fun r' hr' => h r' (List.mem_cons_of_mem r hr')

theorem storedAt_ingest_other (rest : List VecRecord) (r : VecRecord)
    (hne : ∀ r' ∈ rest, r'.id ≠ r.id) :
    ∀ t : List VecRecord, storedAt t r → storedAt (ingest t rest) r := by
  induction rest with
  | nil => intro t h; exact h
  | cons r' rest2 ih =>
      intro t h
      show storedAt (ingest (upsert t r') rest2) r
      exact ih (fun x hx => hne x (List.mem_cons_of_mem r' hx)) (upsert t r')
        (storedAt_upsert_other t r r' (hne r' (List.mem_cons_self r' rest2)) h)

theorem storedAt_ingest (recs : List VecRecord)
    (hnodup : (recs.map VecRecord.id).Nodup) :
    ∀ s : List VecRecord, ∀ r ∈ recs, storedAt (ingest s recs) r := by
  induction recs with
  | nil => intro s r hr; simp at hr
  | cons r0 rest ih =>
      intro s r hr
      simp only [List.map_cons, List.nodup_cons] at hnodup
      rcases List.mem_cons.mp hr with hr0 | hrrest
      · subst hr0
        show storedAt (ingest (upsert s r) rest) r
        refine storedAt_ingest_other rest r ?_ (upsert s r)
          (storedAt_upsert_self s r)
        intro r' hr' hc
        exact hnodup.1 (hc ▸ List.mem_map.mpr ⟨r', hr', rfl⟩)
      · exact ih hnodup.2 (upsert s r0) r hrrest

/-- Re-writing a batch whose ids are pairwise distinct leaves the store
unchanged. -/
theorem ingest_idem (recs : List VecRecord)
    (hnodup : (recs.map VecRecord.id).Nodup) (s : List VecRecord) :
    ingest (ingest s recs) recs = ingest s recs :=
  ingest_storedAt_eq recs (ingest s recs) (storedAt_ingest recs hnodup s)

/-- The ids of the records built by `from_documents` are the chunk ids. -/
theorem from_documents_ids (embed : Str → List ℚ) (chunks : List Document) :
    (from_documents embed chunks).map VecRecord.id = chunk_ids chunks := by
  simp only [from_documents, chunk_ids, List.map_map]
  rfl

/-- C3: ingestion is idempotent.  Chunking is a function of the document and
the parameters, so re-chunking regenerates the identical id sequence, and
ingesting the same document twice produces exactly the store produced by
ingesting it once (the same ids and the same stored content). -/
theorem ingestion_idempotent (embed : Str → List ℚ) (src : Str)
    (pages : List Str) (size ov : Nat) :
    ingest
        (ingest [] (from_documents embed (split_documents size ov (load_pdf src pages))))
        (from_documents embed (split_documents size ov (load_pdf src pages))) =
      ingest [] (from_documents embed (split_documents size ov (load_pdf src pages))) := by
  apply ingest_idem
  rw [from_documents_ids]
  exact (ingestion_ids src pages size ov).2

/-! ### Similarity search and the retriever

`store.similarity_search(query)` and `store.as_retriever()` delegate to
Chroma's nearest-neighbour lookup, which is not in the repository. -/

/-- The dot product of two vectors (componentwise, over the common length). -/
def dot : List ℚ → List ℚ → ℚ
  | a :: as, b :: bs => a * b + dot as bs
  | _, _ => 0

/-- Modelled from the spec: the decidable comparison "the cosine similarity
of `b` to `q` strictly exceeds that of `c` to `q`", written without square
roots by comparing signs first and squared similarities second.  Its
agreement with the real-valued cosine distance `1 - (a·b)/(|a||b|)` of §4.2
is proved in `simGT_iff` below. -/
def simGT (q b c : List ℚ) : Bool :=
  let x := dot q b
  let y := dot q c
  if 0 ≤ x then
    (if 0 < y then decide (y ^ 2 * dot b b < x ^ 2 * dot c c)
     else decide (0 < x ∨ y < 0))
  else
    (if 0 ≤ y then false else decide (x ^ 2 * dot c c < y ^ 2 * dot b b))

/-- Modelled from the spec: the ranking order of §4.2 — smaller cosine
distance first, ties broken by insertion order (the first component is the
record's insertion index). -/
def rankLE (q : List ℚ) (a b : Nat × VecRecord) : Prop :=
  (if simGT q a.2.vector b.2.vector then true
   else if simGT q b.2.vector a.2.vector then false
   else decide (a.1 ≤ b.1)) = true

instance (q : List ℚ) : DecidableRel (rankLE q) := fun _ _ =>
  inferInstanceAs (Decidable (_ = true))

/-- Modelled from the spec: all records ranked by distance (stably, via the
insertion-index tie-break), then the `k` best taken. -/
def rank_records (store : List VecRecord) (qv : List ℚ) :
    List (Nat × VecRecord) :=
  List.insertionSort (rankLE qv) store.enum

/-- Modelled from the spec: `query(collection, query_vector, k)`. -/
def query_records (store : List VecRecord) (qv : List ℚ) (k : Nat) :
    List (Nat × VecRecord) :=
  (rank_records store qv).take k

/-- `store.similarity_search` / retrieval: the `k` best chunks' documents in
ranked order. -/
def similarity_search (store : List VecRecord) (qv : List ℚ) (k : Nat) :
    List Document :=
  (query_records store qv k).map fun p => p.2.doc

/-- Modelled from the spec: `store.as_retriever()` is called with no
arguments, so LangChain's default `k = 4` applies (§4.3; the notebook's
saved output indeed shows four retrieved passages). -/
def default_k : Nat := 4

/-- The retriever: embed the question, search with the default `k`. -/
def as_retriever (store : List VecRecord) (embed : Str → List ℚ) :
    Str → List Document :=
  fun question => similarity_search store (embed question) default_k

theorem rank_records_length (store : List VecRecord) (qv : List ℚ) :
    (rank_records store qv).length = store.length := by
  have hp := List.perm_insertionSort (rankLE qv) store.enum
  rw [rank_records, hp.length_eq, List.enum_length]

/-- C8: with no caller override, retrieval uses the fixed default `k = 4`:
against a collection holding at least 4 records it returns exactly 4 ranked
passages, and against any collection it never returns more than 4. -/
theorem default_k_retrieval (store store2 : List VecRecord)
    (embed : Str → List ℚ) (question : Str) (h : 4 ≤ store.length) :
    (as_retriever store embed question).length = 4 ∧
      (as_retriever store2 embed question).length ≤ 4 := by
  constructor
  · simp only [as_retriever, similarity_search, query_records, List.length_map,
      List.length_take, rank_records_length, default_k]
    omega
  · simp only [as_retriever, similarity_search, query_records, List.length_map,
      List.length_take, rank_records_length, default_k]
    omega

theorem dot_self_nonneg (a : List ℚ) : 0 ≤ dot a a := by
  induction a with
  | nil => simp [dot]
  | cons x xs ih =>
      show 0 ≤ x * x + dot xs xs
      have := mul_self_nonneg x
      linarith

theorem dot_eq_zero_right (b : List ℚ) (hb : dot b b = 0) :
    ∀ q : List ℚ, dot q b = 0 := by
  induction b with
  | nil => intro q; cases q <;> simp [dot]
  | cons y ys ih =>
      have hyy : 0 ≤ y * y := mul_self_nonneg y
      have hys : 0 ≤ dot ys ys := dot_self_nonneg ys
      have hb' : y * y + dot ys ys = 0 := hb
      have hy0 : y = 0 := by
        have : y * y = 0 := by linarith
        exact mul_self_eq_zero.mp this
      have hys0 : dot ys ys = 0 := by linarith
      intro q
      cases q with
      | nil => simp [dot]
      | cons x xs =>
          show x * y + dot xs ys = 0
          rw [hy0, ih hys0 xs]
          ring

theorem dot_eq_zero_left (q : List ℚ) (hq : dot q q = 0) :
    ∀ b : List ℚ, dot q b = 0 := by
  induction q with
  | nil => intro b; cases b <;> simp [dot]
  | cons x xs ih =>
      have hxx : 0 ≤ x * x := mul_self_nonneg x
      have hxs : 0 ≤ dot xs xs := dot_self_nonneg xs
      have hq' : x * x + dot xs xs = 0 := hq
      have hx0 : x = 0 := by
        have : x * x = 0 := by linarith
        exact mul_self_eq_zero.mp this
      have hxs0 : dot xs xs = 0 := by linarith
      intro b
      cases b with
      | nil => simp [dot]
      | cons y ys =>
          show x * y + dot xs ys = 0
          rw [hx0, ih hxs0 ys]
          ring

/-- The cosine similarity of the spec's metric, as a real number: `(q·b) /
(|q||b|)`.  For a zero vector the denominator is zero and Lean's division
convention makes the value `0`, matching the comparator's treatment. -/
noncomputable def simVal (q b : List ℚ) : ℝ :=
  ((dot q b : ℚ) : ℝ) /
    (Real.sqrt ((dot q q : ℚ) : ℝ) * Real.sqrt ((dot b b : ℚ) : ℝ))

/-- The spec's metric (§4.2): cosine distance `1 - (a·b)/(|a||b|)`. -/
noncomputable def cosineDistance (q b : List ℚ) : ℝ := 1 - simVal q b

theorem dot_self_pos_of_right (q c : List ℚ) (h : dot q c ≠ 0) : 0 < dot c c := by
  rcases lt_or_eq_of_le (dot_self_nonneg c) with hl | he
  · exact hl
  · exact absurd (dot_eq_zero_right c he.symm q) h

theorem dot_self_pos_of_left (q c : List ℚ) (h : dot q c ≠ 0) : 0 < dot q q := by
  rcases lt_or_eq_of_le (dot_self_nonneg q) with hl | he
  · exact hl
  · exact absurd (dot_eq_zero_left q he.symm c) h

/-- The decidable comparator agrees with the real cosine similarity:
`simGT q b c` holds exactly when `b` is strictly more similar to `q`
than `c` is. -/
theorem simGT_iff (q b c : List ℚ) :
    simGT q b c = true ↔ simVal q c < simVal q b := by
  have hSnn : (0:ℝ) ≤ ((dot q q : ℚ) : ℝ) := by exact_mod_cast dot_self_nonneg q
  have hBnn : (0:ℝ) ≤ ((dot b b : ℚ) : ℝ) := by exact_mod_cast dot_self_nonneg b
  have hCnn : (0:ℝ) ≤ ((dot c c : ℚ) : ℝ) := by exact_mod_cast dot_self_nonneg c
  have hsnn : 0 ≤ Real.sqrt ((dot q q : ℚ) : ℝ) := Real.sqrt_nonneg _
  have hnbnn : 0 ≤ Real.sqrt ((dot b b : ℚ) : ℝ) := Real.sqrt_nonneg _
  have hncnn : 0 ≤ Real.sqrt ((dot c c : ℚ) : ℝ) := Real.sqrt_nonneg _
  by_cases hx : (0 : ℚ) ≤ dot q b
  · by_cases hy : (0 : ℚ) < dot q c
    · have hCpos : (0 : ℚ) < dot c c := dot_self_pos_of_right q c (ne_of_gt hy)
      have hSpos : (0 : ℚ) < dot q q := dot_self_pos_of_left q c (ne_of_gt hy)
      have hs : 0 < Real.sqrt ((dot q q : ℚ) : ℝ) :=
        Real.sqrt_pos.mpr (by exact_mod_cast hSpos)
      have hnc : 0 < Real.sqrt ((dot c c : ℚ) : ℝ) :=
        Real.sqrt_pos.mpr (by exact_mod_cast hCpos)
      have hyR : (0:ℝ) < ((dot q c : ℚ) : ℝ) := by exact_mod_cast hy
      simp only [simGT, hx, if_true, hy, if_pos, decide_eq_true_eq]
      by_cases hx0 : dot q b = 0
      · have hvb : simVal q b = 0 := by
          simp [simVal, hx0]
        have hvc : 0 < simVal q c := div_pos hyR (mul_pos hs hnc)
        constructor
        · intro hcon
          rw [hx0] at hcon
          exfalso
          nlinarith [sq_nonneg (dot q c), dot_self_nonneg b]
        · intro hcon
          rw [hvb] at hcon
          exact absurd hcon (not_lt.mpr (le_of_lt hvc))
      · have hXpos : (0 : ℚ) < dot q b := lt_of_le_of_ne hx (Ne.symm hx0)
        have hBpos : (0 : ℚ) < dot b b := dot_self_pos_of_right q b hx0
        have hnb : 0 < Real.sqrt ((dot b b : ℚ) : ℝ) :=
          Real.sqrt_pos.mpr (by exact_mod_cast hBpos)
        have hxR : (0:ℝ) < ((dot q b : ℚ) : ℝ) := by exact_mod_cast hXpos
        rw [simVal, simVal, div_lt_div_iff₀ (mul_pos hs hnc) (mul_pos hs hnb)]
        have hstep1 :
            ((dot q c : ℚ) : ℝ) *
                (Real.sqrt ((dot q q : ℚ) : ℝ) * Real.sqrt ((dot b b : ℚ) : ℝ)) <
              ((dot q b : ℚ) : ℝ) *
                (Real.sqrt ((dot q q : ℚ) : ℝ) * Real.sqrt ((dot c c : ℚ) : ℝ)) ↔
            ((dot q c : ℚ) : ℝ) * Real.sqrt ((dot b b : ℚ) : ℝ) <
              ((dot q b : ℚ) : ℝ) * Real.sqrt ((dot c c : ℚ) : ℝ) := by
          constructor
          · intro hlt
            nlinarith
          · intro hlt
            nlinarith
        rw [hstep1]
        have hynb : (0:ℝ) ≤ ((dot q c : ℚ) : ℝ) * Real.sqrt ((dot b b : ℚ) : ℝ) :=
          mul_nonneg (le_of_lt hyR) hnbnn
        have hxnc : (0:ℝ) ≤ ((dot q b : ℚ) : ℝ) * Real.sqrt ((dot c c : ℚ) : ℝ) :=
          mul_nonneg (le_of_lt hxR) hncnn
        rw [mul_self_lt_mul_self_iff hynb hxnc]
        have hnbsq : Real.sqrt ((dot b b : ℚ) : ℝ) * Real.sqrt ((dot b b : ℚ) : ℝ) =
            ((dot b b : ℚ) : ℝ) := Real.mul_self_sqrt hBnn
        have hncsq : Real.sqrt ((dot c c : ℚ) : ℝ) * Real.sqrt ((dot c c : ℚ) : ℝ) =
            ((dot c c : ℚ) : ℝ) := Real.mul_self_sqrt hCnn
        constructor
        · intro hlt
          have hR : ((dot q c : ℚ) : ℝ) ^ 2 * ((dot b b : ℚ) : ℝ) <
              ((dot q b : ℚ) : ℝ) ^ 2 * ((dot c c : ℚ) : ℝ) := by exact_mod_cast hlt
          nlinarith
        · intro hlt
          have hR : ((dot q c : ℚ) : ℝ) ^ 2 * ((dot b b : ℚ) : ℝ) <
              ((dot q b : ℚ) : ℝ) ^ 2 * ((dot c c : ℚ) : ℝ) := by nlinarith
          exact_mod_cast hR
    · simp only [simGT, hx, if_true, hy, if_neg, not_false_iff, decide_eq_true_eq]
      have hyle : dot q c ≤ 0 := le_of_not_lt hy
      constructor
      · rintro (hxpos | hyneg)
        · have hSpos : (0 : ℚ) < dot q q := dot_self_pos_of_left q b (ne_of_gt hxpos)
          have hBpos : (0 : ℚ) < dot b b := dot_self_pos_of_right q b (ne_of_gt hxpos)
          have hs : 0 < Real.sqrt ((dot q q : ℚ) : ℝ) :=
            Real.sqrt_pos.mpr (by exact_mod_cast hSpos)
          have hnb : 0 < Real.sqrt ((dot b b : ℚ) : ℝ) :=
            Real.sqrt_pos.mpr (by exact_mod_cast hBpos)
          have hvb : 0 < simVal q b :=
            div_pos (by exact_mod_cast hxpos) (mul_pos hs hnb)
          have hvc : simVal q c ≤ 0 :=
            div_nonpos_of_nonpos_of_nonneg (by exact_mod_cast hyle)
              (mul_nonneg hsnn hncnn)
          exact lt_of_le_of_lt hvc hvb
        · have hSpos : (0 : ℚ) < dot q q := dot_self_pos_of_left q c (ne_of_lt hyneg)
          have hCpos : (0 : ℚ) < dot c c := dot_self_pos_of_right q c (ne_of_lt hyneg)
          have hs : 0 < Real.sqrt ((dot q q : ℚ) : ℝ) :=
            Real.sqrt_pos.mpr (by exact_mod_cast hSpos)
          have hnc : 0 < Real.sqrt ((dot c c : ℚ) : ℝ) :=
            Real.sqrt_pos.mpr (by exact_mod_cast hCpos)
          have hvc : simVal q c < 0 :=
            div_neg_of_neg_of_pos (by exact_mod_cast hyneg) (mul_pos hs hnc)
          have hvb : 0 ≤ simVal q b :=
            div_nonneg (by exact_mod_cast hx) (mul_nonneg hsnn hnbnn)
          exact lt_of_lt_of_le hvc hvb
      · intro hlt
        by_contra hcon
        push_neg at hcon
        have hx0 : dot q b = 0 := le_antisymm hcon.1 hx
        have hy0 : dot q c = 0 := le_antisymm hyle hcon.2
        have hvb : simVal q b = 0 := by simp [simVal, hx0]
        have hvc : simVal q c = 0 := by simp [simVal, hy0]
        rw [hvb, hvc] at hlt
        exact lt_irrefl 0 hlt
  · have hxneg : dot q b < 0 := lt_of_not_le hx
    have hSpos : (0 : ℚ) < dot q q := dot_self_pos_of_left q b (ne_of_lt hxneg)
    have hBpos : (0 : ℚ) < dot b b := dot_self_pos_of_right q b (ne_of_lt hxneg)
    have hs : 0 < Real.sqrt ((dot q q : ℚ) : ℝ) :=
      Real.sqrt_pos.mpr (by exact_mod_cast hSpos)
    have hnb : 0 < Real.sqrt ((dot b b : ℚ) : ℝ) :=
      Real.sqrt_pos.mpr (by exact_mod_cast hBpos)
    have hvb : simVal q b < 0 :=
      div_neg_of_neg_of_pos (by exact_mod_cast hxneg) (mul_pos hs hnb)
    by_cases hy2 : (0 : ℚ) ≤ dot q c
    · simp only [simGT, hx, if_neg, not_false_iff, hy2, if_true,
        Bool.false_eq_true, false_iff, not_lt]
      have hvc : 0 ≤ simVal q c :=
        div_nonneg (by exact_mod_cast hy2) (mul_nonneg hsnn hncnn)
      exact le_trans (le_of_lt hvb) hvc
    · have hyneg : dot q c < 0 := lt_of_not_le hy2
      have hCpos : (0 : ℚ) < dot c c := dot_self_pos_of_right q c (ne_of_lt hyneg)
      have hnc : 0 < Real.sqrt ((dot c c : ℚ) : ℝ) :=
        Real.sqrt_pos.mpr (by exact_mod_cast hCpos)
      simp only [simGT, hx, if_neg, not_false_iff, hy2, decide_eq_true_eq]
      rw [simVal, simVal, div_lt_div_iff₀ (mul_pos hs hnc) (mul_pos hs hnb)]
      have hxR : ((dot q b : ℚ) : ℝ) < 0 := by exact_mod_cast hxneg
      have hyR : ((dot q c : ℚ) : ℝ) < 0 := by exact_mod_cast hyneg
      have hnbsq : Real.sqrt ((dot b b : ℚ) : ℝ) * Real.sqrt ((dot b b : ℚ) : ℝ) =
          ((dot b b : ℚ) : ℝ) := Real.mul_self_sqrt hBnn
      have hncsq : Real.sqrt ((dot c c : ℚ) : ℝ) * Real.sqrt ((dot c c : ℚ) : ℝ) =
          ((dot c c : ℚ) : ℝ) := Real.mul_self_sqrt hCnn
      have hstep1 :
          ((dot q c : ℚ) : ℝ) *
              (Real.sqrt ((dot q q : ℚ) : ℝ) * Real.sqrt ((dot b b : ℚ) : ℝ)) <
            ((dot q b : ℚ) : ℝ) *
              (Real.sqrt ((dot q q : ℚ) : ℝ) * Real.sqrt ((dot c c : ℚ) : ℝ)) ↔
          ((dot q c : ℚ) : ℝ) * Real.sqrt ((dot b b : ℚ) : ℝ) <
            ((dot q b : ℚ) : ℝ) * Real.sqrt ((dot c c : ℚ) : ℝ) := by
        constructor
        · intro hlt
          nlinarith
        · intro hlt
          nlinarith
      rw [hstep1]
      have hxncneg : ((dot q b : ℚ) : ℝ) * Real.sqrt ((dot c c : ℚ) : ℝ) < 0 :=
        mul_neg_of_neg_of_pos hxR hnc
      have hynbneg : ((dot q c : ℚ) : ℝ) * Real.sqrt ((dot b b : ℚ) : ℝ) < 0 :=
        mul_neg_of_neg_of_pos hyR hnb
      have hstep2 :
          ((dot q c : ℚ) : ℝ) * Real.sqrt ((dot b b : ℚ) : ℝ) <
            ((dot q b : ℚ) : ℝ) * Real.sqrt ((dot c c : ℚ) : ℝ) ↔
          (-(((dot q b : ℚ) : ℝ) * Real.sqrt ((dot c c : ℚ) : ℝ))) *
              (-(((dot q b : ℚ) : ℝ) * Real.sqrt ((dot c c : ℚ) : ℝ))) <
            (-(((dot q c : ℚ) : ℝ) * Real.sqrt ((dot b b : ℚ) : ℝ))) *
              (-(((dot q c : ℚ) : ℝ) * Real.sqrt ((dot b b : ℚ) : ℝ))) := by
        rw [← mul_self_lt_mul_self_iff (by linarith) (by linarith)]
        exact neg_lt_neg_iff.symm
      rw [hstep2]
      have e1 : (-(((dot q b : ℚ) : ℝ) * Real.sqrt ((dot c c : ℚ) : ℝ))) *
            (-(((dot q b : ℚ) : ℝ) * Real.sqrt ((dot c c : ℚ) : ℝ))) =
          ((dot q b : ℚ) : ℝ) ^ 2 *
            (Real.sqrt ((dot c c : ℚ) : ℝ) * Real.sqrt ((dot c c : ℚ) : ℝ)) := by
        ring
      have e2 : (-(((dot q c : ℚ) : ℝ) * Real.sqrt ((dot b b : ℚ) : ℝ))) *
            (-(((dot q c : ℚ) : ℝ) * Real.sqrt ((dot b b : ℚ) : ℝ))) =
          ((dot q c : ℚ) : ℝ) ^ 2 *
            (Real.sqrt ((dot b b : ℚ) : ℝ) * Real.sqrt ((dot b b : ℚ) : ℝ)) := by
        ring
      rw [e1, e2, hnbsq, hncsq]
      constructor
      · intro hlt
        exact_mod_cast hlt
      · intro hlt
        exact_mod_cast hlt

/-- The spec's ranking order (§4.2): strictly smaller cosine distance first,
and on equal distance the earlier-inserted record first. -/
def rankedBefore (q : List ℚ) (a b : Nat × VecRecord) : Prop :=
  cosineDistance q a.2.vector < cosineDistance q b.2.vector ∨
    (cosineDistance q a.2.vector = cosineDistance q b.2.vector ∧ a.1 ≤ b.1)

/-- The executable comparator realises exactly the spec's ranking order. -/
theorem rankLE_iff (q : List ℚ) (a b : Nat × VecRecord) :
    rankLE q a b ↔ rankedBefore q a b := by
  have hab := simGT_iff q a.2.vector b.2.vector
  have hba := simGT_iff q b.2.vector a.2.vector
  have hltab : cosineDistance q a.2.vector < cosineDistance q b.2.vector ↔
      simVal q b.2.vector < simVal q a.2.vector := by
    unfold cosineDistance
    constructor <;> intro h <;> linarith
  have heqq : cosineDistance q a.2.vector = cosineDistance q b.2.vector ↔
      simVal q a.2.vector = simVal q b.2.vector := by
    unfold cosineDistance
    constructor <;> intro h <;> linarith
  unfold rankLE rankedBefore
  by_cases h1 : simGT q a.2.vector b.2.vector = true
  · rw [if_pos h1]
    exact iff_of_true rfl (Or.inl (hltab.mpr (hab.mp h1)))
  · rw [if_neg h1]
    by_cases h2 : simGT q b.2.vector a.2.vector = true
    · rw [if_pos h2]
      refine iff_of_false (by simp) ?_
      rintro (hlt | ⟨heq2, _⟩)
      · exact h1 (hab.mpr (hltab.mp hlt))
      · exact lt_irrefl _ ((heqq.mp heq2) ▸ hba.mp h2)
    · rw [if_neg h2]
      have hsimeq : simVal q a.2.vector = simVal q b.2.vector := by
        have hn1 : ¬ simVal q b.2.vector < simVal q a.2.vector :=
          fun hc => h1 (hab.mpr hc)
        have hn2 : ¬ simVal q a.2.vector < simVal q b.2.vector :=
          fun hc => h2 (hba.mpr hc)
        linarith [lt_or_le (simVal q a.2.vector) (simVal q b.2.vector)]
      constructor
      · intro hd
        right
        exact ⟨heqq.mpr hsimeq, by simpa using hd⟩
      · rintro (hlt | ⟨_, hle⟩)
        · exact absurd (hab.mpr (hltab.mp hlt)) h1
        · simpa using hle

instance (q : List ℚ) : IsTotal (Nat × VecRecord) (rankLE q) := ⟨by
  intro a b
  rw [rankLE_iff, rankLE_iff]
  rcases lt_trichotomy (cosineDistance q a.2.vector) (cosineDistance q b.2.vector)
    with h | h | h
  · exact Or.inl (Or.inl h)
  · rcases Nat.le_total a.1 b.1 with hle | hle
    · exact Or.inl (Or.inr ⟨h, hle⟩)
    · exact Or.inr (Or.inr ⟨h.symm, hle⟩)
  · exact Or.inr (Or.inl h)⟩

instance (q : List ℚ) : IsTrans (Nat × VecRecord) (rankLE q) := ⟨by
  intro a b c hab hbc
  rw [rankLE_iff] at hab hbc ⊢
  rcases hab with h1 | ⟨e1, l1⟩
  · rcases hbc with h2 | ⟨e2, _⟩
    · exact Or.inl (lt_trans h1 h2)
    · exact Or.inl (e2 ▸ h1)
  · rcases hbc with h2 | ⟨e2, l2⟩
    · exact Or.inl (by rw [e1]; exact h2)
    · exact Or.inr ⟨e1.trans e2, le_trans l1 l2⟩⟩

/-- C2: for every collection, query vector and `k`, the query returns the
`k` stored records of smallest cosine distance `1 - (a·b)/(|a||b|)` to the
query vector, ties broken by insertion order: the result plus some rest is
a permutation of the indexed collection, it has `min k n` entries, it is
ranked (pairwise `rankedBefore`), and every returned record ranks no worse
than every record left out. -/
theorem query_topk_cosine (store : List VecRecord) (qv : List ℚ) (k : Nat) :
    ∃ rest : List (Nat × VecRecord),
      (query_records store qv k ++ rest).Perm store.enum ∧
      (query_records store qv k).length = min k store.length ∧
      List.Pairwise (rankedBefore qv) (query_records store qv k) ∧
      ∀ x ∈ query_records store qv k, ∀ y ∈ rest, rankedBefore qv x y := by
  have hsorted : List.Pairwise (rankLE qv) (rank_records store qv) :=
    List.sorted_insertionSort (rankLE qv) store.enum
  refine ⟨(rank_records store qv).drop k, ?_, ?_, ?_, ?_⟩
  · rw [query_records, List.take_append_drop]
    exact List.perm_insertionSort (rankLE qv) store.enum
  · rw [query_records, List.length_take, rank_records_length]
  · exact (hsorted.sublist (List.take_sublist k _)).imp
      fun h => (rankLE_iff qv _ _).mp h
  · intro x hx y hy
    have hsplit : rank_records store qv =
        (rank_records store qv).take k ++ (rank_records store qv).drop k :=
      (List.take_append_drop k _).symm
    rw [hsplit] at hsorted
    exact (rankLE_iff qv x y).mp
      ((List.pairwise_append.mp hsorted).2.2 x hx y hy)

/-! ### Prompt assembly and the RAG chain

From the notebook:

    prompt = PromptTemplate(input_variables=["context", "question"],
                            template=prompt_template)
    llm_chain = LLMChain(llm=mistral_llm, prompt=prompt)
    retriever = store.as_retriever()
    rag_chain = ( \x7b"context": retriever, "question": RunnablePassthrough()\x7d
                  | llm_chain )

The `context` input variable receives the retriever's output — the raw list
of `Document` objects — and `PromptTemplate` renders it with Python `str`,
i.e. as the repr of that list, metadata included.  The notebook's saved
output of `rag_chain.invoke` shows exactly this rendering. -/

/-- Python's string quote. -/
def quoteChar : Char := '\''

/-- Python's `repr` of one langchain `Document`, as it appears verbatim in
the notebook's saved `rag_chain.invoke` output. -/
def pyReprDoc (d : Document) : Str :=
  strOf "Document(page_content=" ++ [quoteChar] ++ d.page_content ++
    [quoteChar] ++ strOf ", metadata=\x7b'page': " ++ natChars d.page ++
    strOf ", 'source': " ++ [quoteChar] ++ d.source ++ [quoteChar] ++
    strOf "\x7d)"

/-- Python's `", ".join`-style rendering of a list's items. -/
def joinComma : List Str → Str
  | [] => []
  | [s] => s
  | s :: rest => s ++ strOf ", " ++ joinComma rest

/-- Python's `repr` of the retrieved `Document` list: what the template's
`\x7bcontext\x7d` slot receives. -/
def pyReprDocs (docs : List Document) : Str :=
  strOf "[" ++ joinComma (docs.map pyReprDoc) ++ strOf "]"

/-- The text of `prompt_template` before the `\x7bcontext\x7d` slot. -/
def prompt_template_pre : Str :=
  strOf "\n### [INST] \nInstruction: Answer the question based on your \ndesigned4devops knowledge. Don't make up answers, just say there is no answer in the book. Here is context to help:\n\n"

/-- The text of `prompt_template` between the two slots. -/
def prompt_template_mid : Str := strOf "\n\n### QUESTION:\n"

/-- The text of `prompt_template` after the `\x7bquestion\x7d` slot. -/
def prompt_template_post : Str := strOf " \n\n[/INST]\n "

/-- `prompt.format(context=…, question=…)`: the assembled prompt. -/
def format_prompt (docs : List Document) (question : Str) : Str :=
  prompt_template_pre ++ pyReprDocs docs ++ prompt_template_mid ++
    question ++ prompt_template_post

/-- The `text-generation` pipeline with `return_full_text=True`: the output
starts with the prompt itself, followed by the newly generated tokens
(`gen` is the opaque language model). -/
def text_generation (gen : Str → Str) (prompt : Str) : Str :=
  prompt ++ gen prompt

/-- What `rag_chain.invoke` returns: the dict with the retrieved context,
the question, and the generated `text`. -/
structure ChainOutput where
  context : List Document
  question : Str
  text : Str
deriving DecidableEq

/-- `rag_chain.invoke(query)`: retrieve with the default retriever, format
the prompt, run the generation pipeline. -/
def rag_chain_invoke (gen : Str → Str) (embed : Str → List ℚ)
    (store : List VecRecord) (question : Str) : ChainOutput :=
  let docs := as_retriever store embed question
  ⟨docs, question, text_generation gen (format_prompt docs question)⟩

theorem occursIn_appL (p s t : Str) (h : occursIn p s) : occursIn p (t ++ s) := by
  obtain ⟨a, b, hab⟩ := h
  exact ⟨t ++ a, b, by rw [hab]; simp [List.append_assoc]⟩

theorem occursIn_appR (p s t : Str) (h : occursIn p s) : occursIn p (s ++ t) := by
  obtain ⟨a, b, hab⟩ := h
  exact ⟨a, b ++ t, by rw [hab]; simp [List.append_assoc]⟩

theorem occursIn_self (p : Str) : occursIn p p := ⟨[], [], by simp⟩

theorem occursIn_trans (p q s : Str) (h1 : occursIn p q) (h2 : occursIn q s) :
    occursIn p s := by
  obtain ⟨a, b, hab⟩ := h1
  obtain ⟨c, d, hcd⟩ := h2
  exact ⟨c ++ a, b ++ d, by rw [hcd, hab]; simp [List.append_assoc]⟩

theorem occursIn_joinComma (l : List Str) (s : Str) (h : s ∈ l) :
    occursIn s (joinComma l) := by
  induction l with
  | nil => simp at h
  | cons x rest ih =>
      rcases List.mem_cons.mp h with hx | hrest
      · subst hx
        cases rest with
        | nil => exact occursIn_self s
        | cons y t =>
            show occursIn s (s ++ strOf ", " ++ joinComma (y :: t))
            rw [List.append_assoc]
            exact occursIn_appR s s (strOf ", " ++ joinComma (y :: t))
              (occursIn_self s)
      · cases rest with
        | nil => simp at hrest
        | cons y t =>
            show occursIn s (x ++ strOf ", " ++ joinComma (y :: t))
            rw [List.append_assoc]
            exact occursIn_appL s _ x
              (occursIn_appL s _ (strOf ", ") (ih hrest))

theorem occursIn_pyReprDocs (docs : List Document) (d : Document)
    (h : d ∈ docs) : occursIn (pyReprDoc d) (pyReprDocs docs) := by
  unfold pyReprDocs
  exact occursIn_appL (pyReprDoc d)
    (joinComma (docs.map pyReprDoc) ++ strOf "]") (strOf "[")
    (occursIn_appR (pyReprDoc d) (joinComma (docs.map pyReprDoc)) (strOf "]")
      (occursIn_joinComma _ _ (List.mem_map_of_mem pyReprDoc h)))

theorem occursIn_content_pyReprDoc (d : Document) :
    occursIn d.page_content (pyReprDoc d) :=
  ⟨strOf "Document(page_content=" ++ [quoteChar],
    [quoteChar] ++ strOf ", metadata=\x7b'page': " ++ natChars d.page ++
      strOf ", 'source': " ++ [quoteChar] ++ d.source ++ [quoteChar] ++
      strOf "\x7d)",
    by simp [pyReprDoc, List.append_assoc]⟩

theorem occursIn_source_pyReprDoc (d : Document) :
    occursIn d.source (pyReprDoc d) :=
  ⟨strOf "Document(page_content=" ++ [quoteChar] ++ d.page_content ++
      [quoteChar] ++ strOf ", metadata=\x7b'page': " ++ natChars d.page ++
      strOf ", 'source': " ++ [quoteChar],
    [quoteChar] ++ strOf "\x7d)",
    by simp [pyReprDoc, List.append_assoc]⟩

theorem occursIn_metadata_pyReprDoc (d : Document) :
    occursIn (strOf "metadata=") (pyReprDoc d) := by
  have hsplit : strOf ", metadata=\x7b'page': " =
      strOf ", " ++ strOf "metadata=" ++ strOf "\x7b'page': " := by decide
  refine ⟨strOf "Document(page_content=" ++ [quoteChar] ++ d.page_content ++
      [quoteChar] ++ strOf ", ",
    strOf "\x7b'page': " ++ natChars d.page ++ strOf ", 'source': " ++
      [quoteChar] ++ d.source ++ [quoteChar] ++ strOf "\x7d)", ?_⟩
  rw [pyReprDoc, hsplit]
  simp [List.append_assoc]

theorem occursIn_question_prompt (docs : List Document) (question : Str) :
    occursIn question (format_prompt docs question) :=
  ⟨prompt_template_pre ++ pyReprDocs docs ++ prompt_template_mid,
    prompt_template_post, by simp [format_prompt, List.append_assoc]⟩

/-- A chunk of the notebook's book, as the saved output shows it. -/
def sampleDoc : Document :=
  ⟨strOf "we process changes to our product",
    strOf "/tf/docker-shared-data/rag-data/d4do_paperback.pdf", 32⟩

/-- A one-record collection holding `sampleDoc`. -/
def sampleRec : VecRecord := ⟨chunkId sampleDoc.source 0, [1], sampleDoc⟩

/-- Two retrieved passages used to exercise the prompt assembler. -/
def docC7a : Document := ⟨strOf "first passage", strOf "doc.pdf", 0⟩

/-- Two retrieved passages used to exercise the prompt assembler. -/
def docC7b : Document := ⟨strOf "second passage", strOf "doc.pdf", 0⟩

/-- A four-record collection for the default-`k` retrieval. -/
def sampleStore4 : List VecRecord :=
  [⟨strOf "a-0", [1], ⟨strOf "pa", strOf "a", 0⟩⟩,
   ⟨strOf "b-0", [1], ⟨strOf "pb", strOf "b", 0⟩⟩,
   ⟨strOf "c-0", [1], ⟨strOf "pc", strOf "c", 0⟩⟩,
   ⟨strOf "d-0", [1], ⟨strOf "pd", strOf "d", 0⟩⟩]

/-- Witness for `default_k_retrieval` on a concrete four-record collection. -/
theorem default_k_retrieval_witness :
    4 ≤ sampleStore4.length ∧
      ((as_retriever sampleStore4 (fun _ => [1]) (strOf "q")).length = 4 ∧
        (as_retriever ([] : List VecRecord) (fun _ => [1]) (strOf "q")).length ≤ 4) :=
  ⟨by decide,
    default_k_retrieval sampleStore4 [] (fun _ => [1]) (strOf "q") (by decide)⟩

/-- C10: with `return_full_text=True`, the `text` field of the chain's
result is the entire assembled prompt verbatim followed by the newly
generated tokens — never only the model's answer. -/
theorem return_full_text_prefix (gen : Str → Str) (embed : Str → List ℚ)
    (store : List VecRecord) (question : Str) :
    (rag_chain_invoke gen embed store question).text =
      format_prompt (as_retriever store embed question) question ++
        gen (format_prompt (as_retriever store embed question) question) := rfl

/-- C9: querying an empty collection returns an empty result rather than an
error, and the pipeline proceeds: the prompt is assembled with the empty
context and the generation stage is still invoked on it. -/
theorem empty_retrieval_proceeds (gen : Str → Str) (embed : Str → List ℚ)
    (question : Str) (k : Nat) :
    similarity_search ([] : List VecRecord) (embed question) k = [] ∧
      (rag_chain_invoke gen embed [] question).context = [] ∧
      (rag_chain_invoke gen embed [] question).text =
        text_generation gen (format_prompt [] question) := by
  refine ⟨?_, rfl, rfl⟩
  simp [similarity_search, query_records, rank_records]

/-- C1 (amended): the `context` slot receives the retriever's raw
`Document` list and is rendered as the Python repr of that list, not as the
passages' raw text: the model-visible prompt contains, for every retrieved
passage, its `Document` wrapper, its metadata dict and its source path. -/
theorem context_slot_is_document_repr (gen : Str → Str) (embed : Str → List ℚ)
    (store : List VecRecord) (question : Str) :
    (rag_chain_invoke gen embed store question).text =
      prompt_template_pre ++ pyReprDocs (as_retriever store embed question) ++
        prompt_template_mid ++ question ++ prompt_template_post ++
        gen (format_prompt (as_retriever store embed question) question) ∧
      ∀ d ∈ as_retriever store embed question,
        occursIn d.source ((rag_chain_invoke gen embed store question).text) ∧
          occursIn (strOf "metadata=")
            ((rag_chain_invoke gen embed store question).text) := by
  constructor
  · show text_generation gen
        (format_prompt (as_retriever store embed question) question) = _
    simp [text_generation, format_prompt, List.append_assoc]
  · intro d hd
    have htext : occursIn (pyReprDoc d)
        ((rag_chain_invoke gen embed store question).text) := by
      show occursIn (pyReprDoc d) (text_generation gen
        (format_prompt (as_retriever store embed question) question))
      unfold text_generation format_prompt
      apply occursIn_appR
      apply occursIn_appR
      apply occursIn_appR
      apply occursIn_appR
      apply occursIn_appL
      exact occursIn_pyReprDocs _ d hd
    exact ⟨occursIn_trans _ _ _ (occursIn_source_pyReprDoc d) htext,
      occursIn_trans _ _ _ (occursIn_metadata_pyReprDoc d) htext⟩

/-- C1 counterexample: one stored record is retrieved; the claim's context
slot — the raw passage text (for a single passage, any delimiter-join is the
raw text itself) — differs from the actual slot, and the model-visible text
contains the metadata dict and the source path. -/
theorem context_slot_counterexample :
    (rag_chain_invoke (fun _ => []) (fun _ => [1]) [sampleRec]
        (strOf "What did Conway say?")).context = [sampleDoc] ∧
      pyReprDocs [sampleDoc] ≠ sampleDoc.page_content ∧
      occursIn (strOf "metadata=")
        ((rag_chain_invoke (fun _ => []) (fun _ => [1]) [sampleRec]
          (strOf "What did Conway say?")).text) ∧
      occursIn sampleDoc.source
        ((rag_chain_invoke (fun _ => []) (fun _ => [1]) [sampleRec]
          (strOf "What did Conway say?")).text) := by
  refine ⟨rfl, ?_, ?_, ?_⟩
  · intro hcon
    have h := congrArg List.head? hcon
    have e1 : List.head? (pyReprDocs [sampleDoc]) = some '[' := rfl
    have e2 : List.head? sampleDoc.page_content = some 'w' := rfl
    rw [e1, e2] at h
    simp at h
  · have htext : occursIn (pyReprDoc sampleDoc)
        ((rag_chain_invoke (fun _ => []) (fun _ => [1]) [sampleRec]
          (strOf "What did Conway say?")).text) := by
      show occursIn (pyReprDoc sampleDoc) (text_generation (fun _ => [])
        (format_prompt [sampleDoc] (strOf "What did Conway say?")))
      unfold text_generation format_prompt
      apply occursIn_appR
      apply occursIn_appR
      apply occursIn_appR
      apply occursIn_appR
      apply occursIn_appL
      exact occursIn_pyReprDocs [sampleDoc] sampleDoc (by simp)
    exact occursIn_trans _ _ _ (occursIn_metadata_pyReprDoc sampleDoc) htext
  · have htext : occursIn (pyReprDoc sampleDoc)
        ((rag_chain_invoke (fun _ => []) (fun _ => [1]) [sampleRec]
          (strOf "What did Conway say?")).text) := by
      show occursIn (pyReprDoc sampleDoc) (text_generation (fun _ => [])
        (format_prompt [sampleDoc] (strOf "What did Conway say?")))
      unfold text_generation format_prompt
      apply occursIn_appR
      apply occursIn_appR
      apply occursIn_appR
      apply occursIn_appR
      apply occursIn_appL
      exact occursIn_pyReprDocs [sampleDoc] sampleDoc (by simp)
    exact occursIn_trans _ _ _ (occursIn_source_pyReprDoc sampleDoc) htext

/-- C7 (amended): the prompt assembler enforces no maximum prompt length:
the assembled prompt always contains the question and every retrieved
passage — in particular the top-1 passage — however long the result is; no
passage is ever dropped. -/
theorem prompt_includes_all (docs : List Document) (question : Str) :
    occursIn question (format_prompt docs question) ∧
      ∀ d ∈ docs, occursIn d.page_content (format_prompt docs question) := by
  refine ⟨occursIn_question_prompt docs question, ?_⟩
  intro d hd
  unfold format_prompt
  apply occursIn_appR
  apply occursIn_appR
  apply occursIn_appR
  apply occursIn_appL
  exact occursIn_trans _ _ _ (occursIn_content_pyReprDoc d)
    (occursIn_pyReprDocs docs d hd)

set_option maxRecDepth 4000 in
/-- C7 counterexample: with two retrieved passages and a configured maximum
prompt length of 1, the assembled prompt exceeds the budget and still
contains the lowest-ranked passage: no passage is dropped to meet the
budget. -/
theorem prompt_budget_counterexample :
    1 < (format_prompt [docC7a, docC7b] (strOf "q")).length ∧
      occursIn docC7b.page_content (format_prompt [docC7a, docC7b] (strOf "q")) ∧
      occursIn (strOf "q") (format_prompt [docC7a, docC7b] (strOf "q")) := by
  refine ⟨?_, ?_, occursIn_question_prompt _ _⟩
  · have hpre : 1 < prompt_template_pre.length := by decide
    unfold format_prompt
    simp only [List.length_append]
    omega
  · unfold format_prompt
    apply occursIn_appR
    apply occursIn_appR
    apply occursIn_appR
    apply occursIn_appL
    exact occursIn_trans _ _ _ (occursIn_content_pyReprDoc docC7b)
      (occursIn_pyReprDocs [docC7a, docC7b] docC7b (by simp))
